import Mathlib

/-!
Verification of the FrancoSphere cleanup_analysis scripts.

`find_duplicates.py` groups file paths by basename and writes a report of the
groups with more than one member; `smart_dedup.py` parses that report, ranks
the members of each group by `(-depth, last_commit, -size)` and emits a shell
script removing everything but the last element of the sorted ranking.

The Python code is shallowly embedded below: file contents are `String`s,
Python `str.strip` / `str.split` / `os.path.basename` are modelled at the
character-list level, the filesystem/git collaborator of `smart_dedup.py` is
an explicit environment of query functions, and the write loops become folds.
-/

namespace Dedup

/-- The whitespace characters removed by Python's `str.strip()` (ASCII set). -/
def pyIsSpace (c : Char) : Bool :=
  c = ' ' || c = '\t' || c = '\n' || c = '\r' || c = '\x0b' || c = '\x0c'

/-- Python `str.strip()`: remove leading and trailing whitespace (char-list level). -/
def pyStripCh (l : List Char) : List Char :=
  ((l.dropWhile pyIsSpace).reverse.dropWhile pyIsSpace).reverse

/-- Python `str.strip()` on strings. -/
def pyStrip (s : String) : String := String.mk (pyStripCh s.data)

/-- Python `str.split(sep)` for a non-empty separator, with explicit fuel so that
the definition is structurally recursive (any fuel `≥ s.length` gives the same
answer). Scans left to right, splitting at each leftmost separator occurrence. -/
def pySplitF (sep : List Char) : Nat → List Char → List (List Char)
  | _, [] => [[]]
  | 0, s => [s]
  | f+1, c :: rest =>
    if !sep.isEmpty && sep.isPrefixOf (c :: rest) then
      [] :: pySplitF sep f (List.drop sep.length (c :: rest))
    else
      match pySplitF sep f rest with
      | [] => [[c]]
      | t :: ts => (c :: t) :: ts

/-- Python `str.split(sep)` (char-list level). -/
def pySplit (sep s : List Char) : List (List Char) := pySplitF sep s.length s

/-- `os.path.basename` for POSIX paths: everything after the last `'/'`. -/
def basename (p : String) : String :=
  String.mk ((p.data.reverse.takeWhile (fun c => c ≠ '/')).reverse)

/-- `filepath.count('/')`: the directory-depth heuristic of `smart_dedup.py`. -/
def countSlash (p : String) : Nat := p.data.count '/'

/-- Iterating a text file line by line (`for line in f`): the chunks between
newlines. Each line is subsequently stripped, which also removes the
terminating newline Python keeps on each yielded line. -/
def pyLines (content : String) : List String :=
  (pySplit ['\n'] content.data).map String.mk

/-- The stripped, non-blank lines of the Finder input: the paths that get grouped. -/
def processedPaths (content : String) : List String :=
  ((pyLines content).map pyStrip).filter (fun s => s ≠ "")

/-- `duplicates[filename].append(filepath)` on an insertion-ordered association
list, modelling the `defaultdict(list)` of `find_duplicates.py`. -/
def addPath : List (String × List String) → String → String → List (String × List String)
  | [], name, p => [(name, [p])]
  | (k, ps) :: rest, name, p =>
    if k = name then (k, ps ++ [p]) :: rest else (k, ps) :: addPath rest name p

/-- The grouping loop of `find_duplicates.py`: strip each line, skip blanks, and
append the path to the group of its basename. -/
def groupByBasename (content : String) : List (String × List String) :=
  (pyLines content).foldl
    (fun acc line =>
      let filepath := pyStrip line
      if filepath = "" then acc else addPath acc (basename filepath) filepath)
    []

/-- Lexicographic comparison of character lists by code point: exactly how
Python compares strings. `charLex x y = true` means `x ≤ y`. -/
def charLex : List Char → List Char → Bool
  | [], _ => true
  | _ :: _, [] => false
  | a :: as, b :: bs =>
    if a < b then true
    else if b < a then false
    else charLex as bs

theorem charLex_cons_iff {a b : Char} {as bs : List Char} :
    charLex (a :: as) (b :: bs) = true ↔ a < b ∨ (a = b ∧ charLex as bs = true) := by
  show (if a < b then true else if b < a then false else charLex as bs) = true ↔ _
  split_ifs with h1 h2
  · simp [h1]
  · simp only [Bool.false_eq_true, false_iff]
    rintro (h | ⟨rfl, -⟩)
    · exact h1 h
    · exact lt_irrefl a h2
  · have hab : a = b := le_antisymm (le_of_not_lt h2) (le_of_not_lt h1)
    subst hab
    simp [lt_irrefl]

theorem charLex_total : ∀ x y, charLex x y = true ∨ charLex y x = true
  | [], _ => Or.inl rfl
  | _ :: _, [] => Or.inr rfl
  | a :: as, b :: bs => by
    rcases lt_trichotomy a b with h | h | h
    · exact Or.inl (charLex_cons_iff.mpr (Or.inl h))
    · rcases charLex_total as bs with ht | ht
      · exact Or.inl (charLex_cons_iff.mpr (Or.inr ⟨h, ht⟩))
      · exact Or.inr (charLex_cons_iff.mpr (Or.inr ⟨h.symm, ht⟩))
    · exact Or.inr (charLex_cons_iff.mpr (Or.inl h))

theorem charLex_trans : ∀ x y z, charLex x y = true → charLex y z = true →
    charLex x z = true
  | [], _, _, _, _ => rfl
  | _ :: _, [], _, h, _ => by simp [charLex] at h
  | _ :: _, _ :: _, [], _, h => by simp [charLex] at h
  | a :: as, b :: bs, c :: cs, h1, h2 => by
    rw [charLex_cons_iff] at h1 h2 ⊢
    rcases h1 with h1 | ⟨rfl, h1⟩
    · rcases h2 with h2 | ⟨rfl, h2⟩
      · exact Or.inl (lt_trans h1 h2)
      · exact Or.inl h1
    · rcases h2 with h2 | ⟨rfl, h2⟩
      · exact Or.inl h2
      · exact Or.inr ⟨rfl, charLex_trans _ _ _ h1 h2⟩

/-- The ordering used by `sorted(duplicates.items())`: Python compares the
(key, value) tuples, and since the dict keys are distinct the comparison is
decided by the basename alone (code-point lexicographic order). -/
def grpRel (a b : String × List String) : Prop := charLex a.1.data b.1.data = true

instance : DecidableRel grpRel := fun a b =>
  inferInstanceAs (Decidable (charLex a.1.data b.1.data = true))

instance : IsTotal (String × List String) grpRel :=
  ⟨fun a b => charLex_total a.1.data b.1.data⟩

instance : IsTrans (String × List String) grpRel :=
  ⟨fun a b c => charLex_trans a.1.data b.1.data c.1.data⟩

/-- `sorted(duplicates.items())`. Python's sort is the unique stable sort, as is
insertion sort, so they agree as functions. -/
def sortedGroups (content : String) : List (String × List String) :=
  List.insertionSort grpRel (groupByBasename content)

/-- The groups the Finder actually reports: those with more than one path. -/
def dupGroups (content : String) : List (String × List String) :=
  (sortedGroups content).filter (fun g => 1 < g.2.length)

/-- One report section, exactly in the format `find_duplicates.py` writes. -/
def renderGroup (g : String × List String) : String :=
  "\n=== " ++ g.1 ++ " (" ++ Nat.repr g.2.length ++ " copies) ===\n" ++
    String.join (g.2.map (fun p => "  " ++ p ++ "\n"))

/-- The report-writer loop of `find_duplicates.py`, as the fold of its writes. -/
def reportOf (content : String) : String :=
  (sortedGroups content).foldl
    (fun out g =>
      if 1 < g.2.length then
        g.2.foldl (fun o p => o ++ "  " ++ p ++ "\n")
          (out ++ "\n=== " ++ g.1 ++ " (" ++ Nat.repr g.2.length ++ " copies) ===\n")
      else out)
    ""

/-- A file-info record, as computed by `get_file_info` of `smart_dedup.py`.
The `datetime` value is its POSIX timestamp (datetimes compare by timestamp). -/
structure FileInfo where
  path : String
  last_commit : Int
  size : Nat
  depth : Nat
deriving DecidableEq

/-- The external collaborators of `smart_dedup.py`: the git log query (`none`
when the command exits non-zero or prints nothing) and the filesystem's
mtime/size queries (`none` models the exception that the bare `except` of
`get_file_info` turns into a `None` result). -/
structure FsEnv where
  gitTime : String → Option Int
  mtime : String → Option Int
  fsize : String → Option Nat

/-- `get_file_info`: git commit time with mtime fallback, size, and the
path's slash count as depth; `none` when the queries fail. -/
def get_file_info (env : FsEnv) (filepath : String) : Option FileInfo :=
  let commitTime :=
    match env.gitTime filepath with
    | some t => some t
    | none => env.mtime filepath
  match commitTime, env.fsize filepath with
  | some t, some s =>
      some { path := filepath, last_commit := t, size := s, depth := countSlash filepath }
  | _, _ => none

/-- The sort key of `choose_best_file`: `(-depth, last_commit, -size)`. -/
def sortKey (i : FileInfo) : Int × Int × Int :=
  (-(i.depth : Int), i.last_commit, -(i.size : Int))

/-- Ascending lexicographic comparison of sort keys (Python tuple `≤`). -/
def keyLe (x y : Int × Int × Int) : Prop :=
  x.1 < y.1 ∨ (x.1 = y.1 ∧ (x.2.1 < y.2.1 ∨ (x.2.1 = y.2.1 ∧ x.2.2 ≤ y.2.2)))

instance : DecidableRel keyLe := fun x y => by unfold keyLe; exact inferInstance

theorem keyLe_total (x y : Int × Int × Int) : keyLe x y ∨ keyLe y x := by
  unfold keyLe; omega

theorem keyLe_trans (x y z : Int × Int × Int) : keyLe x y → keyLe y z → keyLe x z := by
  unfold keyLe; omega

theorem keyLe_refl (x : Int × Int × Int) : keyLe x x := by
  unfold keyLe; omega

/-- The candidate ordering used by `file_infos.sort(key=...)`. -/
def infoLe (a b : FileInfo) : Prop := keyLe (sortKey a) (sortKey b)

instance : DecidableRel infoLe := fun a b =>
  inferInstanceAs (Decidable (keyLe (sortKey a) (sortKey b)))

instance : IsTotal FileInfo infoLe := ⟨fun a b => keyLe_total (sortKey a) (sortKey b)⟩

instance : IsTrans FileInfo infoLe := ⟨fun _ _ _ => keyLe_trans _ _ _⟩

/-- The candidate records of a group that survive info gathering. -/
def fileInfos (env : FsEnv) (paths : List String) : List FileInfo :=
  paths.filterMap (get_file_info env)

/-- `choose_best_file` of `smart_dedup.py`: sort the surviving candidates by
`(-depth, last_commit, -size)` ascending (Python's sort is the unique stable
sort, which insertion sort also is) and return the path of the last element;
`None` when no candidate yields info. -/
def choose_best_file (env : FsEnv) (duplicates : List String) : Option String :=
  let file_infos := fileInfos env duplicates
  if file_infos.isEmpty then none
  else (List.insertionSort infoLe file_infos).getLast?.map FileInfo.path

/-- The separator `'\n==='` that `smart_dedup.py` splits the report on. -/
def secSep : List Char := ['\n', '=', '=', '=']

/-- Parsing one report section: the first line of the stripped section, cut at
the first `'('` and stripped, is the group label; the remaining stripped
non-blank lines are the member paths. -/
def parseSection (sec : List Char) : String × List String :=
  let ls := pySplit ['\n'] (pyStripCh sec)
  let label := String.mk (pyStripCh ((pySplit ['('] (ls.headD [])).headD []))
  let paths := (((ls.drop 1).map pyStripCh).filter (fun l => l ≠ [])).map String.mk
  (label, paths)

/-- The report parsing of `smart_dedup.py`: split on `'\n==='`, skip the
chunk before the first separator, and parse each section. -/
def parseReport (content : String) : List (String × List String) :=
  ((pySplit secSep content.data).drop 1).map parseSection

/-- A removal decision (the `{'keep','remove','filename'}` dict). -/
structure Decision where
  keep : String
  remove : List String
  filename : String
deriving DecidableEq

/-- The body of the decision loop for one parsed section: groups with more
than one path and a ranked best file yield a decision removing every path
different from the best one. -/
def decideSection (env : FsEnv) (g : String × List String) : Option Decision :=
  if 1 < g.2.length then
    match choose_best_file env g.2 with
    | some best =>
        some { keep := best, remove := g.2.filter (fun p => p ≠ best), filename := g.1 }
    | none => none
  else none

/-- All decisions recorded for a report. -/
def selectorDecisions (env : FsEnv) (content : String) : List Decision :=
  (parseReport content).filterMap (decideSection env)

/-- One `rm` line of the generated cleanup script. -/
def rmLine (p : String) : String := "rm -f \"" ++ p ++ "\"\n"

/-- The script-writer loop of `smart_dedup.py`, as the fold of its writes. -/
def renderScript (decisions : List Decision) : String :=
  decisions.foldl
    (fun out d =>
      (d.remove.foldl (fun o p => o ++ rmLine p)
        (out ++ "# " ++ d.filename ++ "\n" ++ "# Keeping: " ++ d.keep ++ "\n")) ++ "\n")
    ("#!/bin/bash\n\n" ++ "# Smart cleanup - keeping best versions\n\n")

/-- An overwriting file write (`open(..., 'w')`): the new content replaces the
prior content of the artifact instead of being appended to it. -/
def pyWriteW (_oldContent newContent : String) : String := newContent

/-- One run of `find_duplicates.py`: the report artifact's content after the
run, as a function of the input artifact and the report's prior content. -/
def finderRun (input oldReport : String) : String :=
  pyWriteW oldReport (reportOf input)

/-- One run of `smart_dedup.py`: the script artifact's content after the run. -/
def selectorRun (env : FsEnv) (report oldScript : String) : String :=
  pyWriteW oldScript (renderScript (selectorDecisions env report))

/-- The per-decision block written by the Selector, in closed form. -/
def decisionBlock (d : Decision) : String :=
  "# " ++ d.filename ++ "\n" ++ "# Keeping: " ++ d.keep ++ "\n" ++
    String.join (d.remove.map rmLine) ++ "\n"

/-- The script format claimed by the spec, following its words: header
`#!/bin/bash`, then only the per-decision blocks (no global comment line). -/
def claimedScriptFormat (decisions : List Decision) : String :=
  "#!/bin/bash\n\n" ++ String.join (decisions.map decisionBlock)

theorem strExt {a b : String} (h : a.data = b.data) : a = b := by
  cases a; cases b; exact congrArg String.mk h

theorem join_cons (s : String) (l : List String) :
    String.join (s :: l) = s ++ String.join l :=
  strExt (by simp)

@[simp]
theorem strAppend_empty (s : String) : s ++ "" = s := strExt (by simp)

@[simp]
theorem strEmpty_append (s : String) : "" ++ s = s := strExt (by simp)

theorem foldl_strAppend {α : Type} (f : α → String) (l : List α) (init : String) :
    l.foldl (fun o x => o ++ f x) init = init ++ String.join (l.map f) := by
  induction l generalizing init with
  | nil => simp [String.join]
  | cons x l ih =>
    simp only [List.foldl_cons, List.map_cons, join_cons, ih]
    simp [String.append_assoc]

theorem foldl_pathline (ps : List String) (init : String) :
    ps.foldl (fun o p => o ++ "  " ++ p ++ "\n") init
      = init ++ String.join (ps.map (fun p => "  " ++ p ++ "\n")) := by
  induction ps generalizing init with
  | nil => simp [String.join]
  | cons p ps ih =>
    simp only [List.foldl_cons, List.map_cons, join_cons, ih]
    simp [String.append_assoc]

theorem reportOf_aux (l : List (String × List String)) (init : String) :
    l.foldl (fun out g =>
      if 1 < g.2.length then
        g.2.foldl (fun o p => o ++ "  " ++ p ++ "\n")
          (out ++ "\n=== " ++ g.1 ++ " (" ++ Nat.repr g.2.length ++ " copies) ===\n")
      else out) init
    = init ++ String.join ((l.filter (fun g => 1 < g.2.length)).map renderGroup) := by
  induction l generalizing init with
  | nil => simp [String.join]
  | cons g l ih =>
    by_cases h : 1 < g.2.length
    · simp only [List.foldl_cons, if_pos h, List.filter_cons, h]
      rw [foldl_pathline, ih]
      simp [renderGroup, join_cons, String.append_assoc]
    · simp only [List.foldl_cons, if_neg h, List.filter_cons, h]
      exact ih init

/-- The report is exactly the concatenation of the rendered duplicate groups. -/
theorem reportOf_eq_join (content : String) :
    reportOf content = String.join ((dupGroups content).map renderGroup) := by
  unfold reportOf dupGroups sortedGroups
  rw [reportOf_aux]
  simp

theorem renderScript_aux (ds : List Decision) (init : String) :
    ds.foldl (fun out d =>
      (d.remove.foldl (fun o p => o ++ rmLine p)
        (out ++ "# " ++ d.filename ++ "\n" ++ "# Keeping: " ++ d.keep ++ "\n")) ++ "\n") init
    = init ++ String.join (ds.map decisionBlock) := by
  induction ds generalizing init with
  | nil => simp [String.join]
  | cons d ds ih =>
    simp only [List.foldl_cons, List.map_cons, join_cons]
    rw [foldl_strAppend, ih]
    simp [decisionBlock, String.append_assoc]

/-- The generated script in closed form: shebang, global comment, blocks. -/
theorem renderScript_eq_join (ds : List Decision) :
    renderScript ds =
      "#!/bin/bash\n\n" ++ "# Smart cleanup - keeping best versions\n\n" ++
        String.join (ds.map decisionBlock) := by
  unfold renderScript
  rw [renderScript_aux]

/-- A collaborator environment whose every query succeeds (git time 5, size 7). -/
def envAll : FsEnv := ⟨fun _ => some 5, fun _ => none, fun _ => some 7⟩

/-- A collaborator environment whose every query fails. -/
def envNone : FsEnv := ⟨fun _ => none, fun _ => none, fun _ => none⟩

/-- C6: for every reported group the Finder renders exactly the header line
`"\n=== <basename> (<count> copies) ===\n"` followed by one line
`"  <path>\n"` per member path; the report is the concatenation of these
blocks, and since every block starts with a newline and ends with one,
consecutive groups are separated by a blank line. -/
theorem c6_report_format (content : String) :
    reportOf content =
      String.join ((dupGroups content).map (fun g =>
        "\n=== " ++ g.1 ++ " (" ++ Nat.repr g.2.length ++ " copies) ===\n" ++
          String.join (g.2.map (fun p => "  " ++ p ++ "\n")))) :=
  reportOf_eq_join content

/-- C7 counterexample: the actual script is not just the `#!/bin/bash` header
plus per-decision blocks — already on an empty report, the Selector also
writes the global comment line `# Smart cleanup - keeping best versions`. -/
theorem c7_cex :
    renderScript (selectorDecisions envAll (reportOf "")) ≠
      claimedScriptFormat (selectorDecisions envAll (reportOf "")) := by
  decide

/-- C7 (amended): the generated script consists of the header `#!/bin/bash`, a
blank line, the comment line `# Smart cleanup - keeping best versions`, a
blank line, and then for each decision a `# <basename>` comment, a
`# Keeping: <path>` comment, one `rm -f "<path>"` line per removed path and a
trailing blank line — and nothing else. -/
theorem c7_script_format (env : FsEnv) (content : String) :
    renderScript (selectorDecisions env content) =
      "#!/bin/bash\n\n" ++ "# Smart cleanup - keeping best versions\n\n" ++
        String.join ((selectorDecisions env content).map (fun d =>
          "# " ++ d.filename ++ "\n" ++ "# Keeping: " ++ d.keep ++ "\n" ++
            String.join (d.remove.map (fun p => "rm -f \"" ++ p ++ "\"\n")) ++ "\n")) :=
  renderScript_eq_join (selectorDecisions env content)

/-- C8: both scripts are deterministic functions of their inputs, and the
output artifacts are overwritten (mode `'w'`), not appended: the new artifact
content is independent of the artifact's prior content, and re-running on
unchanged inputs reproduces the artifact byte for byte. -/
theorem c8_idempotent_runs :
    (∀ input old1 old2 : String, finderRun input old1 = finderRun input old2) ∧
    (∀ input old : String, finderRun input (finderRun input old) = finderRun input old) ∧
    (∀ (env : FsEnv) (report old1 old2 : String),
      selectorRun env report old1 = selectorRun env report old2) ∧
    (∀ (env : FsEnv) (report old : String),
      selectorRun env report (selectorRun env report old) = selectorRun env report old) :=
  ⟨fun _ _ _ => rfl, fun _ _ => rfl, fun _ _ _ _ => rfl, fun _ _ _ => rfl⟩

/-- Lookup in the association list that models the `defaultdict`. -/
def assocFind (n : String) : List (String × List String) → Option (List String)
  | [] => none
  | (k, v) :: rest => if k = n then some v else assocFind n rest

/-- Appending a batch of paths to an optional existing group. -/
def optAppend (o : Option (List String)) (ps : List String) : Option (List String) :=
  match o, ps with
  | none, [] => none
  | o, ps => some (o.getD [] ++ ps)

theorem optAppend_nil (o : Option (List String)) : optAppend o [] = o := by
  cases o <;> simp [optAppend]

theorem optAppend_cons (o : Option (List String)) (p : String) (ps : List String) :
    optAppend o (p :: ps) = optAppend (some (o.getD [] ++ [p])) ps := by
  cases o <;> cases ps <;> simp [optAppend]

theorem assocFind_addPath (acc : List (String × List String)) (n p m : String) :
    assocFind m (addPath acc n p) =
      if m = n then some ((assocFind n acc).getD [] ++ [p]) else assocFind m acc := by
  induction acc with
  | nil =>
    by_cases h : m = n
    · subst h; simp [addPath, assocFind]
    · have h2 : ¬ n = m := fun hh => h hh.symm
      simp [addPath, assocFind, h, h2]
  | cons kv rest ih =>
    obtain ⟨k, v⟩ := kv
    by_cases hk : k = n
    · subst hk
      by_cases h : m = k
      · subst h; simp [addPath, assocFind]
      · have h2 : ¬ k = m := fun hh => h hh.symm
        simp [addPath, assocFind, h, h2]
    · by_cases h : m = n
      · subst h
        have h2 : ¬ k = m := fun hh => hk hh
        simp [addPath, assocFind, hk, h2, ih]
      · by_cases hkm : k = m
        · subst hkm; simp [addPath, assocFind, hk, h]
        · simp [addPath, assocFind, hk, hkm, ih, h]

theorem keys_addPath (acc : List (String × List String)) (n p : String) :
    (addPath acc n p).map Prod.fst =
      if n ∈ acc.map Prod.fst then acc.map Prod.fst else acc.map Prod.fst ++ [n] := by
  induction acc with
  | nil => simp [addPath]
  | cons kv rest ih =>
    obtain ⟨k, v⟩ := kv
    by_cases hk : k = n
    · subst hk; simp [addPath]
    · have h2 : ¬ n = k := fun hh => hk hh.symm
      by_cases hmem : n ∈ rest.map Prod.fst
      · simp [addPath, hk, ih, h2, hmem]
      · simp [addPath, hk, ih, h2, hmem]

theorem nodupKeys_addPath {acc : List (String × List String)} (n p : String)
    (h : (acc.map Prod.fst).Nodup) : ((addPath acc n p).map Prod.fst).Nodup := by
  rw [keys_addPath]
  by_cases hmem : n ∈ acc.map Prod.fst
  · simpa [hmem] using h
  · simp only [hmem, if_false]
    exact List.Nodup.append h (List.nodup_singleton n)
      (fun a ha hb => hmem ((List.mem_singleton.mp hb) ▸ ha))

/-- The input paths whose basename is `n`, in input order. -/
def pathsFor (ls : List String) (n : String) : List String :=
  ((ls.map pyStrip).filter (fun s => s ≠ "")).filter (fun p => basename p = n)

theorem optAppend_none (ps : List String) :
    optAppend none ps = if ps = [] then none else some ps := by
  cases ps <;> simp [optAppend]

theorem assocFind_groupFold (n : String) :
    ∀ (ls : List String) (acc : List (String × List String)),
      assocFind n (ls.foldl (fun acc line =>
        let filepath := pyStrip line
        if filepath = "" then acc else addPath acc (basename filepath) filepath) acc)
      = optAppend (assocFind n acc) (pathsFor ls n)
  | [], acc => by simp [pathsFor, optAppend_nil]
  | line :: ls, acc => by
    by_cases hblank : pyStrip line = ""
    · have hp : pathsFor (line :: ls) n = pathsFor ls n := by
        simp [pathsFor, hblank]
      simp only [List.foldl_cons, hblank, if_pos rfl, hp]
      exact assocFind_groupFold n ls acc
    · by_cases hb : basename (pyStrip line) = n
      · have hp : pathsFor (line :: ls) n = pyStrip line :: pathsFor ls n := by
          simp [pathsFor, hblank, hb]

        simp only [List.foldl_cons, if_neg hblank, hp]
        rw [assocFind_groupFold n ls, assocFind_addPath, hb, if_pos rfl,
          optAppend_cons]
      · have hp : pathsFor (line :: ls) n = pathsFor ls n := by
          simp [pathsFor, hblank, hb]
        simp only [List.foldl_cons, if_neg hblank, hp]
        rw [assocFind_groupFold n ls, assocFind_addPath,
          if_neg (fun hh : n = basename (pyStrip line) => hb hh.symm)]

theorem nodupKeys_groupFold :
    ∀ (ls : List String) (acc : List (String × List String)),
      (acc.map Prod.fst).Nodup →
      ((ls.foldl (fun acc line =>
        let filepath := pyStrip line
        if filepath = "" then acc else addPath acc (basename filepath) filepath) acc).map
          Prod.fst).Nodup
  | [], _, h => h
  | line :: ls, acc, h => by
    by_cases hblank : pyStrip line = ""
    · simp only [List.foldl_cons, hblank, if_pos rfl]
      exact nodupKeys_groupFold ls acc h
    · simp only [List.foldl_cons, if_neg hblank]
      exact nodupKeys_groupFold ls _ (nodupKeys_addPath _ _ h)

theorem assocFind_groupByBasename (content : String) (n : String) :
    assocFind n (groupByBasename content) =
      if (processedPaths content).filter (fun p => basename p = n) = [] then none
      else some ((processedPaths content).filter (fun p => basename p = n)) := by
  unfold groupByBasename
  rw [assocFind_groupFold n (pyLines content) []]
  show optAppend none (pathsFor (pyLines content) n) = _
  rw [optAppend_none]
  rfl

theorem nodupKeys_groupByBasename (content : String) :
    ((groupByBasename content).map Prod.fst).Nodup :=
  nodupKeys_groupFold (pyLines content) [] (by simp)

theorem mem_iff_assocFind :
    ∀ (acc : List (String × List String)), (acc.map Prod.fst).Nodup →
      ∀ (n : String) (ps : List String), ((n, ps) ∈ acc ↔ assocFind n acc = some ps)
  | [], _, n, ps => by simp [assocFind]
  | (k, v) :: rest, hnd, n, ps => by
    simp only [List.map_cons, List.nodup_cons] at hnd
    obtain ⟨hk, hrest⟩ := hnd
    by_cases h : k = n
    · subst h
      have hfind : assocFind k ((k, v) :: rest) = some v := by simp [assocFind]
      rw [hfind]
      constructor
      · intro hmem
        rcases List.mem_cons.mp hmem with heq | hmem2
        · exact congrArg some (Prod.ext_iff.mp heq).2.symm
        · exact absurd (List.mem_map_of_mem Prod.fst hmem2) hk
      · intro hsome
        exact List.mem_cons.mpr (Or.inl (by rw [Option.some.inj hsome]))
    · have h2 : ¬ (n = k ∧ ps = v) := fun hh => h hh.1.symm
      simp only [assocFind, if_neg h, List.mem_cons, Prod.mk.injEq]
      rw [mem_iff_assocFind rest hrest n ps]
      simp [h2]

theorem mem_dupGroups_iff (content : String) (n : String) (ps : List String) :
    (n, ps) ∈ dupGroups content ↔
      (1 < ((processedPaths content).filter (fun p => basename p = n)).length ∧
        ps = (processedPaths content).filter (fun p => basename p = n)) := by
  have hperm : List.Perm (sortedGroups content) (groupByBasename content) :=
    List.perm_insertionSort grpRel _
  have hnd := nodupKeys_groupByBasename content
  unfold dupGroups
  rw [List.mem_filter, hperm.mem_iff, mem_iff_assocFind _ hnd n ps,
    assocFind_groupByBasename]
  by_cases hFe : (processedPaths content).filter (fun p => basename p = n) = []
  · simp [hFe]
  · rw [if_neg hFe]
    constructor
    · rintro ⟨hsome, hlen⟩
      have hps := Option.some.inj hsome
      subst hps
      exact ⟨by simpa using hlen, rfl⟩
    · rintro ⟨hlen, rfl⟩
      exact ⟨rfl, by simpa using hlen⟩

theorem nodupKeys_dupGroups (content : String) :
    ((dupGroups content).map Prod.fst).Nodup := by
  have hperm : List.Perm (sortedGroups content) (groupByBasename content) :=
    List.perm_insertionSort grpRel _
  have hnd2 : ((sortedGroups content).map Prod.fst).Nodup :=
    ((hperm.map Prod.fst).nodup_iff).mpr (nodupKeys_groupByBasename content)
  exact List.Nodup.sublist (List.Sublist.map Prod.fst (List.filter_sublist _)) hnd2

/-- C2: the Finder's report has exactly one section per distinct basename with
more than one path (membership iff the basename's path multiset has size > 1,
and the section key list has no duplicates); the paths of a section are
exactly the stripped non-blank input lines with that basename, in input
order; the header count is by construction the length of that list (see the
rendering in `renderGroup`), and basenames with a single path yield nothing. -/
theorem c2_report_groups (content : String) :
    ((dupGroups content).map Prod.fst).Nodup ∧
    ∀ (n : String) (ps : List String),
      ((n, ps) ∈ dupGroups content ↔
        (1 < ((processedPaths content).filter (fun p => basename p = n)).length ∧
          ps = (processedPaths content).filter (fun p => basename p = n))) :=
  ⟨nodupKeys_dupGroups content, fun n ps => mem_dupGroups_iff content n ps⟩

/-- C2 witness: on the concrete input `"a/x\nb/x"` the group of basename `x`
is reported with both paths in input order. -/
theorem c2_witness : ("x", ["a/x", "b/x"]) ∈ dupGroups "a/x\nb/x" :=
  ((c2_report_groups "a/x\nb/x").2 "x" ["a/x", "b/x"]).mpr (by decide)

/-- C10: the sections of the report appear in strictly ascending
code-point-lexicographic order of their basenames, for every input. -/
theorem c10_sections_sorted (content : String) :
    ((dupGroups content).map Prod.fst).Pairwise
      (fun a b => charLex a.data b.data = true ∧ a ≠ b) := by
  have hsorted : (sortedGroups content).Pairwise grpRel :=
    List.sorted_insertionSort grpRel (groupByBasename content)
  have hdup : (dupGroups content).Pairwise grpRel :=
    List.Pairwise.sublist (List.filter_sublist _) hsorted
  have h1 : ((dupGroups content).map Prod.fst).Pairwise
      (fun a b => charLex a.data b.data = true) :=
    (List.pairwise_map).mpr hdup
  have h2 : ((dupGroups content).map Prod.fst).Pairwise (fun a b => a ≠ b) :=
    nodupKeys_dupGroups content
  exact h1.and h2

theorem pairwise_rel_getLast {α : Type} {r : α → α → Prop} (hrefl : ∀ a, r a a) :
    ∀ (l : List α), l.Pairwise r → ∀ m, l.getLast? = some m → ∀ x ∈ l, r x m
  | [], _, m, h, x, hx => by simp at h
  | [a], _, m, h, x, hx => by
    simp only [List.getLast?_singleton, Option.some.injEq] at h
    simp only [List.mem_singleton] at hx
    rw [hx, ← h]
    exact hrefl a
  | a :: b :: t, hp, m, h, x, hx => by
    rw [List.getLast?_cons_cons] at h
    rcases List.mem_cons.mp hx with rfl | hx2
    · have hm : m ∈ b :: t := List.mem_of_mem_getLast? (Option.mem_def.mpr h)
      exact (List.pairwise_cons.mp hp).1 m hm
    · exact pairwise_rel_getLast hrefl (b :: t) (List.pairwise_cons.mp hp).2 m h x hx2

theorem choose_best_spec (env : FsEnv) (ps : List String)
    (hne : fileInfos env ps ≠ []) :
    ∃ m ∈ fileInfos env ps, choose_best_file env ps = some m.path ∧
      ∀ i ∈ fileInfos env ps, infoLe i m := by
  have hperm := List.perm_insertionSort infoLe (fileInfos env ps)
  have hsne : List.insertionSort infoLe (fileInfos env ps) ≠ [] := by
    intro h
    exact hne (List.Perm.eq_nil (h ▸ hperm.symm))
  cases hm : (List.insertionSort infoLe (fileInfos env ps)).getLast? with
  | none => exact absurd (List.getLast?_eq_none_iff.mp hm) hsne
  | some m =>
    have hfalse : (fileInfos env ps).isEmpty = false := by
      cases hinf : fileInfos env ps with
      | nil => exact absurd hinf hne
      | cons a l => rfl
    refine ⟨m, ?_, ?_, ?_⟩
    · exact hperm.mem_iff.mp (List.mem_of_mem_getLast? (Option.mem_def.mpr hm))
    · show (if (fileInfos env ps).isEmpty then none
          else ((List.insertionSort infoLe (fileInfos env ps)).getLast?).map FileInfo.path)
        = some m.path
      rw [hfalse, hm]
      rfl
    · intro i hi
      have hi2 : i ∈ List.insertionSort infoLe (fileInfos env ps) := hperm.mem_iff.mpr hi
      have hsorted : (List.insertionSort infoLe (fileInfos env ps)).Pairwise infoLe :=
        List.sorted_insertionSort infoLe (fileInfos env ps)
      exact pairwise_rel_getLast (fun a => keyLe_refl (sortKey a)) _ hsorted m hm i hi2

theorem infoLe_iff (i m : FileInfo) :
    infoLe i m ↔
      (m.depth < i.depth ∨ (i.depth = m.depth ∧
        (i.last_commit < m.last_commit ∨
          (i.last_commit = m.last_commit ∧ m.size ≤ i.size)))) := by
  unfold infoLe keyLe sortKey
  simp only
  omega

/-- C1: whenever every path of a non-empty group yields file info,
`choose_best_file` returns the path of a candidate that is maximal for the
composite ranking: no other candidate has strictly smaller depth, nor equal
depth and strictly newer commit time, nor equal depth and time and strictly
smaller size — i.e. the last element of the ascending sort by
`(-depth, last_commit, -size)`. -/
theorem c1_choose_best_maximal (env : FsEnv) (ps : List String)
    (hne : ps ≠ [])
    (hall : ∀ p ∈ ps, (get_file_info env p).isSome) :
    ∃ m ∈ fileInfos env ps, choose_best_file env ps = some m.path ∧
      ∀ i ∈ fileInfos env ps,
        m.depth < i.depth ∨ (i.depth = m.depth ∧
          (i.last_commit < m.last_commit ∨
            (i.last_commit = m.last_commit ∧ m.size ≤ i.size))) := by
  have hinfne : fileInfos env ps ≠ [] := by
    obtain ⟨p, hp⟩ := List.exists_mem_of_ne_nil ps hne
    obtain ⟨i, hi⟩ := Option.isSome_iff_exists.mp (hall p hp)
    intro hcon
    have hmem : i ∈ fileInfos env ps := List.mem_filterMap.mpr ⟨p, hp, hi⟩
    rw [hcon] at hmem
    cases hmem
  obtain ⟨m, hm, hres, hmax⟩ := choose_best_spec env ps hinfne
  exact ⟨m, hm, hres, fun i hi => (infoLe_iff i m).mp (hmax i hi)⟩

/-- C1 witness: a concrete group where all info queries succeed; the chosen
path `"x"` (depth 0) is maximal for the ranking. -/
theorem c1_witness :
    ∃ m ∈ fileInfos envAll ["a/x", "x"],
      choose_best_file envAll ["a/x", "x"] = some m.path ∧
      ∀ i ∈ fileInfos envAll ["a/x", "x"],
        m.depth < i.depth ∨ (i.depth = m.depth ∧
          (i.last_commit < m.last_commit ∨
            (i.last_commit = m.last_commit ∧ m.size ≤ i.size))) :=
  c1_choose_best_maximal envAll ["a/x", "x"] (by decide) (by decide)

theorem get_file_info_path (env : FsEnv) (p : String) (i : FileInfo)
    (h : get_file_info env p = some i) : i.path = p := by
  cases hg : env.gitTime p <;> cases hm : env.mtime p <;> cases hs : env.fsize p <;>
    simp [get_file_info, hg, hm, hs] at h <;> rw [← h]

theorem mem_fileInfos (env : FsEnv) (ps : List String) (i : FileInfo) :
    i ∈ fileInfos env ps ↔ ∃ p, p ∈ ps ∧ get_file_info env p = some i := by
  simp [fileInfos, List.mem_filterMap]

theorem choose_best_mem (env : FsEnv) (ps : List String) (b : String)
    (h : choose_best_file env ps = some b) :
    ∃ i ∈ fileInfos env ps, i.path = b ∧ get_file_info env b = some i := by
  unfold choose_best_file at h
  by_cases he : (fileInfos env ps).isEmpty
  · rw [if_pos he] at h; cases h
  · rw [if_neg he] at h
    obtain ⟨m, hm, hmp⟩ := Option.map_eq_some'.mp h
    have hmem : m ∈ fileInfos env ps :=
      (List.perm_insertionSort infoLe _).mem_iff.mp
        (List.mem_of_mem_getLast? (Option.mem_def.mpr hm))
    obtain ⟨p, hp, hi⟩ := (mem_fileInfos env ps m).mp hmem
    have hpath := get_file_info_path env p m hi
    refine ⟨m, hmem, hmp, ?_⟩
    rw [← hmp, hpath]
    exact hi

/-- C4: a path whose info query fails is excluded from the ranking input; a
group whose every path fails yields no best file, no recorded decision, and
(since rm lines come only from recorded decisions, each of which stems from a
section with a successful best file) no rm lines for that group. -/
theorem c4_failed_paths_excluded (env : FsEnv) (content : String) :
    (∀ g ∈ parseReport content, ∀ p ∈ g.2, get_file_info env p = none →
        ∀ i ∈ fileInfos env g.2, i.path ≠ p) ∧
    (∀ g ∈ parseReport content, (∀ p ∈ g.2, get_file_info env p = none) →
        (choose_best_file env g.2 = none ∧ decideSection env g = none)) ∧
    (∀ d ∈ selectorDecisions env content,
        ∃ g ∈ parseReport content, decideSection env g = some d) := by
  refine ⟨?_, ?_, ?_⟩
  · intro g hg p hp hfail i hi hpath
    obtain ⟨q, hq, hiq⟩ := (mem_fileInfos env g.2 i).mp hi
    have hqi : q = i.path := (get_file_info_path env q i hiq).symm
    rw [hqi, hpath] at hiq
    rw [hfail] at hiq
    cases hiq
  · intro g hg hallfail
    have hinfos : fileInfos env g.2 = [] := by
      unfold fileInfos
      rw [List.filterMap_eq_nil_iff]
      exact hallfail
    have hcb : choose_best_file env g.2 = none := by
      unfold choose_best_file
      rw [hinfos]
      rfl
    refine ⟨hcb, ?_⟩
    unfold decideSection
    by_cases hl : 1 < g.2.length
    · rw [if_pos hl, hcb]
    · rw [if_neg hl]
  · intro d hd
    obtain ⟨g, hg, hdec⟩ := List.mem_filterMap.mp hd
    exact ⟨g, hg, hdec⟩

/-- C4 witness: with the all-failing environment, the concrete group parsed
from the Finder's report on `"a/x\nb/x"` yields no best file and no decision. -/
theorem c4_witness :
    choose_best_file envNone ["a/x", "b/x"] = none ∧
      decideSection envNone ("x", ["a/x", "b/x"]) = none :=
  (c4_failed_paths_excluded envNone (reportOf "a/x\nb/x")).2.1
    ("x", ["a/x", "b/x"]) (by decide) (by decide)

/-- An environment where only `"a/x"` is known to git and the filesystem. -/
def envHalf : FsEnv :=
  ⟨fun p => if p = "a/x" then some 1 else none,
   fun _ => none,
   fun p => if p = "a/x" then some 1 else none⟩

/-- C5: in a group with a recorded decision, a member path whose info query
failed is always among the removed paths (and so gets an rm line): failure
only disqualifies a path from being the keeper, it does not protect it. -/
theorem c5_failed_path_still_removed (env : FsEnv) (g : String × List String)
    (d : Decision) (p : String) (hdec : decideSection env g = some d)
    (hp : p ∈ g.2) (hfail : get_file_info env p = none) :
    p ∈ d.remove ∧ rmLine p ∈ d.remove.map rmLine := by
  unfold decideSection at hdec
  by_cases hl : 1 < g.2.length
  · rw [if_pos hl] at hdec
    cases hcb : choose_best_file env g.2 with
    | none => rw [hcb] at hdec; cases hdec
    | some b =>
      rw [hcb] at hdec
      obtain ⟨i, hmem, hpath, hbest⟩ := choose_best_mem env g.2 b hcb
      have hpb : p ≠ b := by
        intro hh
        rw [hh] at hfail
        rw [hbest] at hfail
        cases hfail
      obtain rfl := Option.some.inj hdec
      have hrem : p ∈ g.2.filter (fun q => q ≠ b) :=
        List.mem_filter.mpr ⟨hp, by simpa using hpb⟩
      exact ⟨hrem, List.mem_map_of_mem rmLine hrem⟩
  · rw [if_neg hl] at hdec; cases hdec

/-- C5 witness: `"b/x"` fails info gathering while `"a/x"` succeeds; the
decision keeps `"a/x"` and `"b/x"` is removed. -/
theorem c5_witness :
    "b/x" ∈ (Decision.mk "a/x" ["b/x"] "x").remove ∧
      rmLine "b/x" ∈ (Decision.mk "a/x" ["b/x"] "x").remove.map rmLine :=
  c5_failed_path_still_removed envHalf ("x", ["a/x", "b/x"])
    ⟨"a/x", ["b/x"], "x"⟩ "b/x" (by decide) (by decide) (by decide)

theorem length_filter_ne_of_nodup {l : List String} {b : String}
    (hnd : l.Nodup) (hb : b ∈ l) :
    (l.filter (fun p => p ≠ b)).length = l.length - 1 := by
  induction l with
  | nil => cases hb
  | cons a l ih =>
    rw [List.nodup_cons] at hnd
    obtain ⟨ha, hnd⟩ := hnd
    rcases List.mem_cons.mp hb with rfl | hb2
    · have hself : l.filter (fun p => p ≠ b) = l := by
        apply List.filter_eq_self.mpr
        intro x hx
        have hxb : x ≠ b := fun hh => ha (hh ▸ hx)
        simpa using hxb
      have hcond : ¬ ((fun p : String => decide (p ≠ b)) b = true) := by simp
      rw [@List.filter_cons_of_neg String (fun p : String => decide (p ≠ b)) b l hcond,
        hself, List.length_cons]
      omega
    · have hab : a ≠ b := fun hh => ha (hh ▸ hb2)
      have hpos : 0 < l.length := List.length_pos_of_mem hb2
      have hlen2 := ih hnd hb2
      have hcond : (fun p : String => decide (p ≠ b)) a = true := by simpa using hab
      rw [@List.filter_cons_of_pos String (fun p : String => decide (p ≠ b)) a l hcond,
        List.length_cons, List.length_cons, hlen2]
      omega

theorem rmLine_inj {p q : String} (h : rmLine p = rmLine q) : p = q := by
  have hd := congrArg String.data h
  simp only [rmLine, String.data_append] at hd
  apply strExt
  have h1 := List.append_cancel_right hd
  exact List.append_cancel_left h1

/-- C3 counterexample: a report group that lists the same path twice (which
the Finder produces when the input repeats a line). The decision removes
`count - multiplicity(best)` paths, here `0`, not `count - 1 = 1`. -/
theorem c3_cex :
    ("x.txt", ["a/x.txt", "a/x.txt"]) ∈ parseReport (reportOf "a/x.txt\na/x.txt") ∧
    1 < (["a/x.txt", "a/x.txt"] : List String).length ∧
    decideSection envAll ("x.txt", ["a/x.txt", "a/x.txt"]) =
      some ⟨"a/x.txt", [], "x.txt"⟩ ∧
    ¬ (([] : List String).length = (["a/x.txt", "a/x.txt"] : List String).length - 1) := by
  decide

/-- C3 (amended): for every parsed group with more than one path, *whose paths
are pairwise distinct*, and whose decision exists, the decision removes
exactly `count - 1` paths — one rm line each — and the kept path has no rm
line. (Without distinctness the code removes `count - k` paths, `k` the
multiplicity of the keeper.) -/
theorem c3_removes_all_but_keeper (env : FsEnv) (content : String)
    (g : String × List String) (d : Decision)
    (_hg : g ∈ parseReport content) (hlen : 1 < g.2.length) (hnd : g.2.Nodup)
    (hdec : decideSection env g = some d) :
    d.remove.length = g.2.length - 1 ∧ d.keep ∉ d.remove ∧
      (d.remove.map rmLine).length = g.2.length - 1 ∧
      rmLine d.keep ∉ d.remove.map rmLine := by
  unfold decideSection at hdec
  rw [if_pos hlen] at hdec
  cases hcb : choose_best_file env g.2 with
  | none => rw [hcb] at hdec; cases hdec
  | some b =>
    rw [hcb] at hdec
    obtain ⟨i, hmem, hpath, hbest⟩ := choose_best_mem env g.2 b hcb
    have hbmem : b ∈ g.2 := by
      obtain ⟨q, hq, hiq⟩ := (mem_fileInfos env g.2 i).mp hmem
      have hqi : q = i.path := (get_file_info_path env q i hiq).symm
      rw [hqi, hpath] at hq
      exact hq
    obtain rfl := Option.some.inj hdec
    have hlenf : (g.2.filter (fun p => p ≠ b)).length = g.2.length - 1 :=
      length_filter_ne_of_nodup hnd hbmem
    have hnotin : b ∉ g.2.filter (fun p => p ≠ b) := by
      intro hmem2
      have hcon := (List.mem_filter.mp hmem2).2
      simp at hcon
    refine ⟨hlenf, hnotin, by rw [List.length_map]; exact hlenf, ?_⟩
    intro hmem3
    obtain ⟨q, hq, heq⟩ := List.mem_map.mp hmem3
    rw [rmLine_inj heq] at hq
    exact hnotin hq

/-- C3 witness: distinct paths `a/x` and `b/x`; the decision keeps one and
removes exactly one, and the keeper has no rm line. -/
theorem c3_witness :
    (Decision.mk "b/x" ["a/x"] "x").remove.length =
        (["a/x", "b/x"] : List String).length - 1 ∧
      (Decision.mk "b/x" ["a/x"] "x").keep ∉ (Decision.mk "b/x" ["a/x"] "x").remove ∧
      ((Decision.mk "b/x" ["a/x"] "x").remove.map rmLine).length =
        (["a/x", "b/x"] : List String).length - 1 ∧
      rmLine (Decision.mk "b/x" ["a/x"] "x").keep ∉
        (Decision.mk "b/x" ["a/x"] "x").remove.map rmLine :=
  c3_removes_all_but_keeper envAll (reportOf "a/x\nb/x") ("x", ["a/x", "b/x"])
    ⟨"b/x", ["a/x"], "x"⟩ (by decide) (by decide) (by decide) (by decide)

theorem isPrefixOf_iff_take :
    ∀ (l m : List Char), l.isPrefixOf m = true ↔ m.take l.length = l
  | [], m => by simp [List.isPrefixOf]
  | a :: l, [] => by simp [List.isPrefixOf]
  | a :: l, b :: m => by
    simp only [List.isPrefixOf, Bool.and_eq_true, beq_iff_eq, List.length_cons,
      List.take_succ_cons, List.cons.injEq]
    rw [isPrefixOf_iff_take l m]
    constructor
    · rintro ⟨h1, h2⟩; exact ⟨h1.symm, h2⟩
    · rintro ⟨h1, h2⟩; exact ⟨h1.symm, h2⟩

theorem isPrefixOf_length_le {l m : List Char} (h : l.isPrefixOf m = true) :
    l.length ≤ m.length := by
  rw [isPrefixOf_iff_take] at h
  have h2 := congrArg List.length h
  simp only [List.length_take] at h2
  omega

theorem isPrefixOf_append_left {sep x : List Char} (y : List Char)
    (hlen : sep.length ≤ x.length) :
    sep.isPrefixOf (x ++ y) = sep.isPrefixOf x := by
  by_cases h : sep.isPrefixOf x = true
  · rw [h]
    rw [isPrefixOf_iff_take] at h ⊢
    rw [List.take_append_of_le_length hlen, h]
  · rw [Bool.eq_false_iff.mpr h]
    apply Bool.eq_false_iff.mpr
    intro hcon
    apply h
    rw [isPrefixOf_iff_take] at hcon ⊢
    rw [List.take_append_of_le_length hlen] at hcon
    exact hcon

theorem isPrefixOf_append_ext {sep x : List Char} (y : List Char)
    (h : sep.isPrefixOf x = true) : sep.isPrefixOf (x ++ y) = true := by
  rw [isPrefixOf_append_left y (isPrefixOf_length_le h)]
  exact h

/-- No occurrence of `sep` starts strictly inside `t` when `t` is followed by
`sep`: the split of `t ++ sep ++ r` finds its first separator at the end of `t`. -/
def SepFree (sep t : List Char) : Prop :=
  ∀ p, p < t.length → ¬ (sep.isPrefixOf ((t ++ sep).drop p) = true)

theorem sepFree_nil (sep : List Char) : SepFree sep [] := by
  intro p hp
  cases hp

theorem sepFree_of_tail {sep : List Char} {a : Char} {t : List Char}
    (h : SepFree sep (a :: t)) : SepFree sep t := by
  intro p hp hpre
  apply h (p + 1) (by simpa using Nat.succ_lt_succ hp)
  simpa using hpre

theorem sepFree_not_self {sep : List Char} {a : Char} {t : List Char}
    (h : SepFree sep (a :: t)) (r : List Char) :
    ¬ (sep.isPrefixOf ((a :: t) ++ sep ++ r) = true) := by
  intro hpre
  apply h 0 (by simp)
  rw [List.drop_zero]
  rw [← @isPrefixOf_append_left sep ((a :: t) ++ sep) r (by simp; omega)]
  simpa [List.append_assoc] using hpre

theorem pySplitF_congr (sep : List Char) :
    ∀ (f1 f2 : Nat) (s : List Char), s.length ≤ f1 → s.length ≤ f2 →
      pySplitF sep f1 s = pySplitF sep f2 s
  | f1, f2, [], _, _ => by
    cases f1 <;> cases f2 <;> rfl
  | 0, f2, c :: rest, h1, _ => by simp at h1
  | f1+1, 0, c :: rest, _, h2 => by simp at h2
  | f1+1, f2+1, c :: rest, h1, h2 => by
    simp only [pySplitF]
    by_cases hc : (!sep.isEmpty && sep.isPrefixOf (c :: rest)) = true
    · rw [if_pos hc, if_pos hc]
      have hsep : 0 < sep.length := by
        rcases sep with _ | ⟨d, ds⟩
        · simp at hc
        · simp
      have hd : (List.drop sep.length (c :: rest)).length ≤ f1 := by
        simp only [List.length_drop, List.length_cons]
        simp only [List.length_cons] at h1
        omega
      have hd2 : (List.drop sep.length (c :: rest)).length ≤ f2 := by
        simp only [List.length_drop, List.length_cons]
        simp only [List.length_cons] at h2
        omega
      rw [pySplitF_congr sep f1 f2 _ hd hd2]
    · rw [if_neg hc, if_neg hc]
      have hr1 : rest.length ≤ f1 := by simp at h1; omega
      have hr2 : rest.length ≤ f2 := by simp at h2; omega
      rw [pySplitF_congr sep f1 f2 rest hr1 hr2]

theorem pySplitF_eq_pySplit (sep : List Char) (f : Nat) (s : List Char)
    (h : s.length ≤ f) : pySplitF sep f s = pySplit sep s :=
  pySplitF_congr sep f s.length s h le_rfl

theorem pySplit_nil (sep : List Char) : pySplit sep [] = [[]] := rfl

theorem pySplit_append_sep (sep : List Char) (hsep : sep ≠ []) :
    ∀ (t r : List Char), SepFree sep t →
      pySplit sep (t ++ sep ++ r) = t :: pySplit sep r := by
  intro t
  induction t with
  | nil =>
    intro r _
    rcases sep with _ | ⟨c, sep'⟩
    · exact absurd rfl hsep
    · show pySplitF (c :: sep') ((c :: sep') ++ r).length ((c :: sep') ++ r) = _
      have hlen : ((c :: sep') ++ r).length = (sep' ++ r).length + 1 := by simp
      rw [hlen]
      show (if !(c :: sep').isEmpty && (c :: sep').isPrefixOf (c :: (sep' ++ r)) then
          [] :: pySplitF (c :: sep') ((sep' ++ r).length)
            (List.drop (c :: sep').length (c :: (sep' ++ r)))
        else _) = _
      have hpre : (c :: sep').isPrefixOf (c :: (sep' ++ r)) = true := by
        rw [isPrefixOf_iff_take]
        show (c :: (sep' ++ r)).take (sep'.length + 1) = c :: sep'
        rw [List.take_succ_cons, List.take_append_of_le_length le_rfl, List.take_length]
      rw [if_pos (by simp [hpre])]
      have hdrop : List.drop (c :: sep').length (c :: (sep' ++ r)) = r := by
        show List.drop (sep'.length + 1) (c :: (sep' ++ r)) = r
        rw [List.drop_succ_cons, List.drop_append_of_le_length le_rfl, List.drop_length]
        simp
      rw [hdrop]
      rw [pySplitF_eq_pySplit _ _ _ (by simp)]
  | cons a t ih =>
    intro r hfree
    show pySplitF sep ((a :: t) ++ sep ++ r).length ((a :: t) ++ sep ++ r) = _
    have hlen : ((a :: t) ++ sep ++ r).length = (t ++ sep ++ r).length + 1 := by simp
    have hcons : (a :: t) ++ sep ++ r = a :: (t ++ sep ++ r) := by simp
    rw [hlen, hcons]
    show (if !sep.isEmpty && sep.isPrefixOf (a :: (t ++ sep ++ r)) then
        [] :: pySplitF sep ((t ++ sep ++ r).length)
          (List.drop sep.length (a :: (t ++ sep ++ r)))
      else
        match pySplitF sep ((t ++ sep ++ r).length) (t ++ sep ++ r) with
        | [] => [[a]]
        | t2 :: ts => (a :: t2) :: ts) = _
    have hnot : ¬ (sep.isPrefixOf (a :: (t ++ sep ++ r)) = true) := by
      have h0 := sepFree_not_self hfree r
      simpa [List.append_assoc] using h0
    have hcondP : ¬ ((!sep.isEmpty && sep.isPrefixOf (a :: (t ++ sep ++ r))) = true) := by
      intro hcon
      rw [Bool.and_eq_true] at hcon
      exact hnot hcon.2
    rw [if_neg hcondP]
    rw [pySplitF_eq_pySplit _ _ _ le_rfl]
    rw [ih r (sepFree_of_tail hfree)]

theorem pySplit_sepFree_eq (sep : List Char) (hsep : sep ≠ []) :
    ∀ (t : List Char), SepFree sep t → pySplit sep t = [t] := by
  intro t
  induction t with
  | nil => intro _; rfl
  | cons a t ih =>
    intro hfree
    show pySplitF sep (t.length + 1) (a :: t) = [a :: t]
    show (if !sep.isEmpty && sep.isPrefixOf (a :: t) then
        [] :: pySplitF sep t.length (List.drop sep.length (a :: t))
      else
        match pySplitF sep t.length t with
        | [] => [[a]]
        | t2 :: ts => (a :: t2) :: ts) = _
    have hnot : ¬ (sep.isPrefixOf (a :: t) = true) := by
      intro hcon
      apply hfree 0 (by simp)
      rw [List.drop_zero]
      exact isPrefixOf_append_ext sep hcon
    have hcondP : ¬ ((!sep.isEmpty && sep.isPrefixOf (a :: t)) = true) := by
      intro hcon
      rw [Bool.and_eq_true] at hcon
      exact hnot hcon.2
    rw [if_neg hcondP]
    rw [pySplitF_eq_pySplit _ _ _ le_rfl, ih (sepFree_of_tail hfree)]

theorem pySplit_blocks (sep : List Char) (hsep : sep ≠ []) :
    ∀ (bodies : List (List Char)) (t : List Char), SepFree sep t →
      (∀ b ∈ bodies, SepFree sep b) →
      pySplit sep (t ++ (bodies.map (fun b => sep ++ b)).flatten) = t :: bodies
  | [], t, hfree, _ => by
    simp only [List.map_nil, List.flatten_nil, List.append_nil]
    exact pySplit_sepFree_eq sep hsep t hfree
  | b :: bodies, t, hfree, hall => by
    have hshape : t ++ ((b :: bodies).map (fun x => sep ++ x)).flatten
        = t ++ sep ++ (b ++ (bodies.map (fun x => sep ++ x)).flatten) := by
      simp [List.append_assoc]
    rw [hshape, pySplit_append_sep sep hsep t _ hfree,
      pySplit_blocks sep hsep bodies b (hall b (List.mem_cons_self b bodies))
        (fun x hx => hall x (List.mem_cons_of_mem b hx))]

theorem isPrefixOf_getElem {sep l : List Char} {p : Nat}
    (h : sep.isPrefixOf (l.drop p) = true) :
    ∀ j, j < sep.length → l[p + j]? = sep[j]? := by
  intro j hj
  rw [isPrefixOf_iff_take] at h
  have h1 : sep[j]? = ((l.drop p).take sep.length)[j]? := by rw [h]
  rw [List.getElem?_take_of_lt hj, List.getElem?_drop] at h1
  exact h1.symm

/-- The adjacency constraint that keeps a `'\n'` from being followed by `'='`:
such text can never contain the section separator `"\n==="`. -/
def NlOk (x y : Char) : Prop := x = '\n' → y ≠ '='

theorem sepFree_single_of_not_mem {c : Char} {t : List Char} (h : c ∉ t) :
    SepFree [c] t := by
  intro p hp hpre
  have h0 := isPrefixOf_getElem hpre 0 (by simp)
  rw [Nat.add_zero] at h0
  rw [List.getElem?_append_left hp] at h0
  exact h (List.getElem?_mem (by simpa using h0))

theorem sepFree_secSep_of_chain {t : List Char} (h : List.Chain' NlOk t) :
    SepFree secSep t := by
  intro p hp hpre
  have h0 := isPrefixOf_getElem hpre 0 (by simp [secSep])
  have h1 := isPrefixOf_getElem hpre 1 (by simp [secSep])
  rw [Nat.add_zero] at h0
  have h0t : t[p]? = some '\n' := by
    rw [List.getElem?_append_left hp] at h0
    simpa [secSep] using h0
  by_cases hp1 : p + 1 < t.length
  · have h1t : t[p + 1]? = some '=' := by
      rw [List.getElem?_append_left hp1] at h1
      simpa [secSep] using h1
    have hc := (List.chain'_iff_get.mp h) p (by omega)
    have e0 : t.get ⟨p, by omega⟩ = '\n' := by
      have h2 : t[p]? = some (t.get ⟨p, by omega⟩) := by
        simp [List.getElem?_eq_getElem hp]
      rw [h0t] at h2
      exact (Option.some.inj h2).symm
    have e1 : t.get ⟨p + 1, by omega⟩ = '=' := by
      have h2 : t[p + 1]? = some (t.get ⟨p + 1, by omega⟩) := by
        simp [List.getElem?_eq_getElem hp1]
      rw [h1t] at h2
      exact (Option.some.inj h2).symm
    exact (hc e0) e1
  · have h1t : (t ++ secSep)[p + 1]? = some '\n' := by
      rw [List.getElem?_append_right (by omega)]
      have hz : p + 1 - t.length = 0 := by omega
      rw [hz]
      rfl
    rw [h1t] at h1
    have : ('\n' : Char) = '=' := by
      have h2 : some '\n' = secSep[1]? := h1
      simpa [secSep] using h2
    cases this

theorem chain'_nlOk_of_no_nl : ∀ {l : List Char}, (∀ c ∈ l, c ≠ '\n') → l.Chain' NlOk
  | [], _ => List.chain'_nil
  | [a], _ => List.chain'_singleton a
  | a :: b :: l, h => List.chain'_cons.mpr
      ⟨fun ha => absurd ha (h a (List.mem_cons_self a _)),
        chain'_nlOk_of_no_nl (fun c hc => h c (List.mem_cons_of_mem a hc))⟩

theorem chain'_nlOk_append_nl {A : List Char} (h : ∀ c ∈ A, c ≠ '\n') :
    (A ++ ['\n']).Chain' NlOk := by
  rw [List.chain'_append]
  refine ⟨chain'_nlOk_of_no_nl h, List.chain'_singleton _, ?_⟩
  intro x hx y hy
  simp only [List.head?_cons, Option.mem_def, Option.some.injEq] at hy
  intro hx2
  rw [← hy]
  decide

theorem flatten_head_ne :
    ∀ (blocks : List (List Char)), (∀ b ∈ blocks, ∀ y ∈ b.head?, y ≠ '=') →
      ∀ y ∈ blocks.flatten.head?, y ≠ '='
  | [], _, y, hy => by simp at hy
  | b :: blocks, h, y, hy => by
    rw [List.flatten_cons, List.head?_append] at hy
    cases hb : b.head? with
    | some c =>
      rw [hb] at hy
      have hyc : c = y := by simpa using hy
      rw [← hyc]
      exact h b (List.mem_cons_self b _) c (by simp [hb])
    | none =>
      rw [hb] at hy
      exact flatten_head_ne blocks (fun x hx => h x (List.mem_cons_of_mem b hx)) y
        (by simpa using hy)

theorem chain'_nlOk_flatten :
    ∀ (blocks : List (List Char)),
      (∀ b ∈ blocks, b.Chain' NlOk) →
      (∀ b ∈ blocks, ∀ y ∈ b.head?, y ≠ '=') →
      (blocks.flatten).Chain' NlOk
  | [], _, _ => List.chain'_nil
  | b :: blocks, hchain, hhead => by
    rw [List.flatten_cons, List.chain'_append]
    refine ⟨hchain b (List.mem_cons_self b _),
      chain'_nlOk_flatten blocks (fun x hx => hchain x (List.mem_cons_of_mem b hx))
        (fun x hx => hhead x (List.mem_cons_of_mem b hx)), ?_⟩
    intro x hx y hy
    intro hx2
    exact flatten_head_ne blocks (fun z hz => hhead z (List.mem_cons_of_mem b hz)) y hy

theorem dropWhile_eq_self_of_length {p : Char → Bool} :
    ∀ {l : List Char}, (l.dropWhile p).length = l.length → l.dropWhile p = l
  | [], _ => rfl
  | a :: l, h => by
    rw [List.dropWhile_cons] at h ⊢
    by_cases ha : p a = true
    · simp only [ha, if_true] at h ⊢
      have hle : (l.dropWhile p).length ≤ l.length := (List.dropWhile_sublist _).length_le
      simp only [List.length_cons] at h
      omega
    · simp [ha]

theorem stripInv_eq_dropWhile {l : List Char} (h : pyStripCh l = l) :
    l.dropWhile pyIsSpace = l := by
  have hlen : l.length = (pyStripCh l).length := by rw [h]
  have h1 : (pyStripCh l).length ≤ (l.dropWhile pyIsSpace).length := by
    unfold pyStripCh
    rw [List.length_reverse]
    calc ((l.dropWhile pyIsSpace).reverse.dropWhile pyIsSpace).length
        ≤ (l.dropWhile pyIsSpace).reverse.length := (List.dropWhile_sublist _).length_le
      _ = (l.dropWhile pyIsSpace).length := List.length_reverse _
  have h2 : (l.dropWhile pyIsSpace).length ≤ l.length := (List.dropWhile_sublist _).length_le
  exact dropWhile_eq_self_of_length (by omega)

theorem stripInv_head {l : List Char} (h : pyStripCh l = l) :
    ∀ c ∈ l.head?, pyIsSpace c = false := by
  intro c hc
  have hd := stripInv_eq_dropWhile h
  cases l with
  | nil => simp at hc
  | cons a t =>
    have hca : a = c := by simpa using hc
    rw [← hca]
    by_cases ha : pyIsSpace a = true
    · rw [List.dropWhile_cons] at hd
      simp only [ha, if_true] at hd
      have hl := congrArg List.length hd
      have hle : (t.dropWhile pyIsSpace).length ≤ t.length := (List.dropWhile_sublist _).length_le
      simp only [List.length_cons] at hl
      omega
    · simpa using ha

theorem stripInv_last {l : List Char} (h : pyStripCh l = l) :
    ∀ c ∈ l.getLast?, pyIsSpace c = false := by
  have hd := stripInv_eq_dropWhile h
  have h2 : (l.reverse.dropWhile pyIsSpace).reverse = l := by
    have hh : pyStripCh l = (l.reverse.dropWhile pyIsSpace).reverse := by
      unfold pyStripCh
      rw [hd]
    rw [← hh, h]
  have h3 : l.reverse.dropWhile pyIsSpace = l.reverse := by
    have h4 := congrArg List.reverse h2
    simpa using h4
  intro c hc
  have hc2 : c ∈ l.reverse.head? := by
    rw [List.head?_reverse]
    exact hc
  cases hrev : l.reverse with
  | nil => rw [hrev] at hc2; simp at hc2
  | cons a t =>
    rw [hrev] at hc2 h3
    have hca : a = c := by simpa using hc2
    rw [← hca]
    by_cases ha : pyIsSpace a = true
    · rw [List.dropWhile_cons] at h3
      simp only [ha, if_true] at h3
      have hl := congrArg List.length h3
      have hle : (t.dropWhile pyIsSpace).length ≤ t.length := (List.dropWhile_sublist _).length_le
      simp only [List.length_cons] at hl
      omega
    · simpa using ha

theorem strip_of_ends {l : List Char}
    (hhead : ∀ c ∈ l.head?, pyIsSpace c = false)
    (hlast : ∀ c ∈ l.getLast?, pyIsSpace c = false) :
    pyStripCh l = l := by
  have h1 : l.dropWhile pyIsSpace = l := by
    cases l with
    | nil => rfl
    | cons a t =>
      rw [List.dropWhile_cons]
      have ha := hhead a (by simp)
      simp [ha]
  unfold pyStripCh
  rw [h1]
  have h2 : l.reverse.dropWhile pyIsSpace = l.reverse := by
    cases hrev : l.reverse with
    | nil => rfl
    | cons a t =>
      rw [List.dropWhile_cons]
      have ha : a ∈ l.getLast? := by
        rw [← List.head?_reverse, hrev]
        simp
      have has := hlast a ha
      simp [has]
  rw [h2, List.reverse_reverse]

theorem getLast?_dropWhile_sub {p : Char → Bool} :
    ∀ {l : List Char} {c : Char}, (l.dropWhile p).getLast? = some c →
      l.getLast? = some c
  | [], c, h => by simp at h
  | a :: t, c, h => by
    rw [List.dropWhile_cons] at h
    by_cases ha : p a = true
    · simp only [ha, if_true] at h
      have ht := getLast?_dropWhile_sub h
      cases t with
      | nil => simp at ht
      | cons b u =>
        rw [List.getLast?_cons_cons]
        exact ht
    · simp only [ha, if_false] at h
      exact h

theorem pyStripCh_head {l : List Char} {c : Char}
    (hc : (pyStripCh l).head? = some c) : pyIsSpace c = false := by
  unfold pyStripCh at hc
  rw [List.head?_reverse] at hc
  have h2 := getLast?_dropWhile_sub hc
  rw [List.getLast?_reverse] at h2
  have h3 := List.head?_dropWhile_not pyIsSpace l
  rw [h2] at h3
  exact h3

theorem pyStripCh_last {l : List Char} {c : Char}
    (hc : (pyStripCh l).getLast? = some c) : pyIsSpace c = false := by
  unfold pyStripCh at hc
  rw [List.getLast?_reverse] at hc
  have h3 := List.head?_dropWhile_not pyIsSpace (l.dropWhile pyIsSpace).reverse
  rw [hc] at h3
  exact h3

theorem pyStripCh_idem (l : List Char) : pyStripCh (pyStripCh l) = pyStripCh l :=
  strip_of_ends (fun c hc => pyStripCh_head hc) (fun c hc => pyStripCh_last hc)

theorem mem_of_mem_pyStripCh {c : Char} {l : List Char} (h : c ∈ pyStripCh l) :
    c ∈ l := by
  unfold pyStripCh at h
  rw [List.mem_reverse] at h
  have h2 := (List.dropWhile_sublist pyIsSpace).subset h
  rw [List.mem_reverse] at h2
  exact (List.dropWhile_sublist pyIsSpace).subset h2

theorem pyStripCh_spaces_append {ws l : List Char}
    (hws : ∀ c ∈ ws, pyIsSpace c = true) :
    pyStripCh (ws ++ l) = pyStripCh l := by
  unfold pyStripCh
  rw [List.dropWhile_append_of_pos hws]

theorem not_mem_pySplitF_single (c : Char) :
    ∀ (f : Nat) (s : List Char), s.length ≤ f → ∀ t ∈ pySplitF [c] f s, c ∉ t
  | f, [], _, t, ht => by
    cases f <;> (simp only [pySplitF] at ht; simp at ht; rw [ht]; simp)
  | 0, a :: s, h, t, ht => by simp at h
  | f+1, a :: s, h, t, ht => by
    have hlen : s.length ≤ f := by simp at h; omega
    simp only [pySplitF] at ht
    by_cases hc : (!(([c] : List Char).isEmpty) && ([c] : List Char).isPrefixOf (a :: s)) = true
    · rw [if_pos hc] at ht
      rcases List.mem_cons.mp ht with rfl | ht2
      · simp
      · have hdrop : List.drop ([c] : List Char).length (a :: s) = s := by simp
        rw [hdrop] at ht2
        exact not_mem_pySplitF_single c f s hlen t ht2
    · rw [if_neg hc] at ht
      have hca : ¬ (a = c) := by
        intro hh
        apply hc
        subst hh
        simp [List.isPrefixOf]
      cases hres : pySplitF [c] f s with
      | nil =>
        rw [hres] at ht
        have ht1 : t = [a] := by simpa using ht
        rw [ht1]
        simp
        exact fun hh => hca hh.symm
      | cons t1 ts =>
        rw [hres] at ht
        rcases List.mem_cons.mp ht with rfl | ht2
        · intro hmem
          rcases List.mem_cons.mp hmem with hh | hh
          · exact hca hh.symm
          · exact not_mem_pySplitF_single c f s hlen t1
              (by rw [hres]; exact List.mem_cons_self t1 ts) hh
        · exact not_mem_pySplitF_single c f s hlen t
            (by rw [hres]; exact List.mem_cons_of_mem t1 ht2)

theorem not_mem_pySplit_single (c : Char) (s : List Char) :
    ∀ t ∈ pySplit [c] s, c ∉ t :=
  not_mem_pySplitF_single c s.length s le_rfl

theorem digitChar_ge_16 (m : Nat) (h : 16 ≤ m) : Nat.digitChar m = '*' := by
  unfold Nat.digitChar
  repeat rw [if_neg (by omega)]

theorem digitChar_ne_nl (m : Nat) : Nat.digitChar m ≠ '\n' := by
  by_cases h : m < 16
  · interval_cases m <;> decide
  · rw [digitChar_ge_16 m (by omega)]
    decide

theorem toDigitsCore_ne_nl (b : Nat) :
    ∀ (f n : Nat) (ds : List Char), (∀ c ∈ ds, c ≠ '\n') →
      ∀ c ∈ Nat.toDigitsCore b f n ds, c ≠ '\n'
  | 0, n, ds, hds, c, hc => hds c hc
  | f+1, n, ds, hds, c, hc => by
    simp only [Nat.toDigitsCore] at hc
    by_cases h : n / b = 0
    · rw [if_pos h] at hc
      rcases List.mem_cons.mp hc with rfl | hc2
      · exact digitChar_ne_nl _
      · exact hds c hc2
    · rw [if_neg h] at hc
      refine toDigitsCore_ne_nl b f (n / b) _ ?_ c hc
      intro d hd
      rcases List.mem_cons.mp hd with rfl | hd2
      · exact digitChar_ne_nl _
      · exact hds d hd2

theorem repr_ne_nl (k : Nat) : ∀ c ∈ (Nat.repr k).data, c ≠ '\n' := by
  intro c hc
  have hr : (Nat.repr k).data = Nat.toDigitsCore 10 (k + 1) k [] := rfl
  rw [hr] at hc
  exact toDigitsCore_ne_nl 10 (k + 1) k [] (by simp) c hc

theorem rotate_nl :
    ∀ (toks : List (List Char)),
      ['\n'] ++ (toks.map (fun t => t ++ ['\n'])).flatten
        = (toks.map (fun t => ['\n'] ++ t)).flatten ++ ['\n']
  | [] => rfl
  | t :: toks => by
    simp only [List.map_cons, List.flatten_cons]
    rw [← List.append_assoc, ← List.append_assoc]
    have ih := rotate_nl toks
    rw [List.append_assoc, ih, List.append_assoc, ← List.append_assoc]
    simp

/-- The body of one report section: everything of `renderGroup` after the
leading `"\n==="`. -/
def groupBody (g : String × List String) : List Char :=
  (" " ++ g.1 ++ " (" ++ Nat.repr g.2.length ++ " copies) ===\n").data ++
    (g.2.map (fun p => ("  " ++ p ++ "\n").data)).flatten

theorem renderGroup_data (g : String × List String) :
    (renderGroup g).data = secSep ++ groupBody g := by
  simp only [renderGroup, groupBody, String.data_append, String.data_join,
    List.map_map]
  simp only [secSep, List.append_assoc, List.cons_append, List.nil_append]
  rfl

theorem dropWhile_append_of_ne {p : Char → Bool} {x : List Char} (y : List Char)
    (h : x.dropWhile p ≠ []) : (x ++ y).dropWhile p = x.dropWhile p ++ y := by
  rw [List.dropWhile_append]
  rw [if_neg (by simpa using h)]

theorem dropWhile_ne_nil_of_exists {p : Char → Bool} :
    ∀ {x : List Char} (c : Char), c ∈ x → p c = false → x.dropWhile p ≠ []
  | [], c, hc, _ => absurd hc (by simp)
  | a :: t, c, hc, hpc => by
    rw [List.dropWhile_cons]
    by_cases ha : p a = true
    · rw [if_pos ha]
      rcases List.mem_cons.mp hc with rfl | hc2
      · rw [ha] at hpc; cases hpc
      · exact dropWhile_ne_nil_of_exists c hc2 hpc
    · rw [if_neg ha]
      simp

theorem head?_takeWhile_sub {p : Char → Bool} {l : List Char} {c : Char}
    (h : (l.takeWhile p).head? = some c) : l.head? = some c := by
  cases l with
  | nil => simp at h
  | cons a t =>
    rw [List.takeWhile_cons] at h
    by_cases ha : p a = true
    · simp only [ha, if_true, List.head?_cons] at h
      simpa using h
    · simp [ha] at h

theorem flatten_getLast?_ne_space :
    ∀ (blocks : List (List Char)), blocks ≠ [] →
      (∀ b ∈ blocks, ∃ c, b.getLast? = some c ∧ pyIsSpace c = false) →
      ∃ c, blocks.flatten.getLast? = some c ∧ pyIsSpace c = false
  | [], h, _ => absurd rfl h
  | [b], _, h => by simpa using h b (by simp)
  | b :: b2 :: blocks, _, h => by
    rw [List.flatten_cons]
    obtain ⟨c, hc, hcs⟩ := flatten_getLast?_ne_space (b2 :: blocks) (by simp)
      (fun x hx => h x (List.mem_cons_of_mem b hx))
    refine ⟨c, ?_, hcs⟩
    rw [List.getLast?_append, hc]
    rfl

theorem processedPaths_facts (content : String) (p : String)
    (hp : p ∈ processedPaths content) :
    p.data ≠ [] ∧ pyStripCh p.data = p.data ∧ '\n' ∉ p.data := by
  unfold processedPaths at hp
  rw [List.mem_filter] at hp
  obtain ⟨hp1, hp2⟩ := hp
  obtain ⟨line, hline, rfl⟩ := List.mem_map.mp hp1
  have hne : (pyStrip line).data ≠ [] := by
    intro hcon
    exact (of_decide_eq_true hp2) (strExt hcon)
  refine ⟨hne, pyStripCh_idem line.data, ?_⟩
  intro hmem
  have h2 : '\n' ∈ line.data := mem_of_mem_pyStripCh hmem
  unfold pyLines at hline
  obtain ⟨tok, htok, rfl⟩ := List.mem_map.mp hline
  exact not_mem_pySplit_single '\n' content.data tok htok h2

theorem basename_facts (p : String) (hstrip : pyStripCh p.data = p.data) :
    ('\n' ∉ p.data → '\n' ∉ (basename p).data) ∧
    (∀ c ∈ (basename p).data.getLast?, pyIsSpace c = false) := by
  constructor
  · intro hnl hmem
    unfold basename at hmem
    rw [List.mem_reverse] at hmem
    have h2 := (List.takeWhile_sublist _).subset hmem
    rw [List.mem_reverse] at h2
    exact hnl h2
  · intro c hc
    unfold basename at hc
    rw [List.getLast?_reverse] at hc
    have h2 : p.data.reverse.head? = some c := head?_takeWhile_sub hc
    rw [List.head?_reverse] at h2
    exact stripInv_last hstrip c h2

theorem dupGroups_member_facts (content : String) (g : String × List String)
    (hg : g ∈ dupGroups content) :
    1 < g.2.length ∧
    (∀ p ∈ g.2, p.data ≠ [] ∧ pyStripCh p.data = p.data ∧ '\n' ∉ p.data) ∧
    '\n' ∉ g.1.data ∧ (∀ c ∈ g.1.data.getLast?, pyIsSpace c = false) := by
  have hg2 : (g.1, g.2) ∈ dupGroups content := by rw [Prod.mk.eta]; exact hg
  obtain ⟨hlen, hps⟩ := (mem_dupGroups_iff content g.1 g.2).mp hg2
  have hmem : ∀ p ∈ g.2, p ∈ processedPaths content ∧ basename p = g.1 := by
    intro p hp
    rw [hps] at hp
    rw [List.mem_filter] at hp
    exact ⟨hp.1, of_decide_eq_true hp.2⟩
  have hpaths : ∀ p ∈ g.2, p.data ≠ [] ∧ pyStripCh p.data = p.data ∧ '\n' ∉ p.data :=
    fun p hp => processedPaths_facts content p (hmem p hp).1
  refine ⟨by rw [hps]; exact hlen, hpaths, ?_⟩
  have hne : g.2 ≠ [] := by
    intro hcon
    rw [hcon] at hps
    rw [← hps] at hlen
    simp at hlen
  obtain ⟨p0, hp0⟩ := List.exists_mem_of_ne_nil g.2 hne
  obtain ⟨hproc0, hbase0⟩ := hmem p0 hp0
  have hfacts := basename_facts p0 (hpaths p0 hp0).2.1
  rw [hbase0] at hfacts
  exact ⟨hfacts.1 (hpaths p0 hp0).2.2, hfacts.2⟩

/-- The header of a section body, without its trailing newline. -/
def headerA (g : String × List String) : List Char :=
  (" " ++ g.1 ++ " (" ++ Nat.repr g.2.length ++ " copies) ===").data

/-- One path line without its surrounding newlines. -/
def lineTok (p : String) : List Char := ("  " ++ p).data

/-- The path lines of a section, newline-prefixed (the shape that line
splitting recovers). -/
def midX (g : String × List String) : List Char :=
  (g.2.map (fun p => ['\n'] ++ lineTok p)).flatten

theorem rotate_nl2 {α : Type} (tok : α → List Char) :
    ∀ (l : List α),
      ['\n'] ++ (l.map (fun x => tok x ++ ['\n'])).flatten
        = (l.map (fun x => ['\n'] ++ tok x)).flatten ++ ['\n']
  | [] => rfl
  | t :: l => by
    simp only [List.map_cons, List.flatten_cons]
    have ih := rotate_nl2 tok l
    rw [← List.append_assoc, ← List.append_assoc]
    rw [List.append_assoc, ih, List.append_assoc, ← List.append_assoc]
    simp

theorem groupBody_shape (g : String × List String) :
    groupBody g = (headerA g ++ ['\n']) ++
      (g.2.map (fun p => lineTok p ++ ['\n'])).flatten := by
  unfold groupBody headerA lineTok
  have h1 : (" " ++ g.1 ++ " (" ++ Nat.repr g.2.length ++ " copies) ===\n").data
      = (" " ++ g.1 ++ " (" ++ Nat.repr g.2.length ++ " copies) ===").data ++ ['\n'] := by
    simp only [String.data_append, List.append_assoc]
    rfl
  rw [h1]
  rfl

theorem groupBody_decomp (g : String × List String) :
    groupBody g = headerA g ++ (midX g ++ ['\n']) := by
  rw [groupBody_shape, List.append_assoc]
  unfold midX
  rw [rotate_nl2 lineTok g.2]

theorem headerA_no_nl (content : String) (g : String × List String)
    (hg : g ∈ dupGroups content) : ∀ c ∈ headerA g, c ≠ '\n' := by
  obtain ⟨-, -, hnl1, -⟩ := dupGroups_member_facts content g hg
  intro c hc
  unfold headerA at hc
  simp only [String.data_append, List.mem_append] at hc
  rcases hc with ((((hc | hc) | hc) | hc) | hc)
  · have hcc : c = ' ' := by simpa using hc
    rw [hcc]; decide
  · intro hh; exact hnl1 (hh ▸ hc)
  · fin_cases hc <;> decide
  · exact repr_ne_nl _ c hc
  · fin_cases hc <;> decide

theorem headerA_has_eq (g : String × List String) : '=' ∈ headerA g := by
  unfold headerA
  simp only [String.data_append, List.mem_append]
  exact Or.inr (by decide)

theorem midX_head (g : String × List String) (hne : g.2 ≠ []) :
    (midX g).head? = some '\n' := by
  unfold midX
  cases hcase : g.2 with
  | nil => exact absurd hcase hne
  | cons p ps =>
    rw [List.map_cons, List.flatten_cons]
    rfl

theorem lineTok_getLast {p : String} (hne : p.data ≠ [])
    (hlast : ∀ c ∈ p.data.getLast?, pyIsSpace c = false) :
    ∃ c, (['\n'] ++ lineTok p).getLast? = some c ∧ pyIsSpace c = false := by
  obtain ⟨c, hc⟩ : ∃ c, p.data.getLast? = some c := by
    cases hg : p.data.getLast? with
    | none => exact absurd (List.getLast?_eq_none_iff.mp hg) hne
    | some c => exact ⟨c, rfl⟩
  refine ⟨c, ?_, hlast c (by rw [hc]; rfl)⟩
  have htok : lineTok p = [' ', ' '] ++ p.data := rfl
  rw [htok]
  rw [List.getLast?_append, List.getLast?_append, hc]
  rfl

theorem midX_getLast (content : String) (g : String × List String)
    (hg : g ∈ dupGroups content) :
    ∃ c, (midX g).getLast? = some c ∧ pyIsSpace c = false := by
  obtain ⟨hlen, hpaths, -, -⟩ := dupGroups_member_facts content g hg
  have hne : g.2 ≠ [] := by
    intro hcon
    rw [hcon] at hlen
    simp at hlen
  unfold midX
  apply flatten_getLast?_ne_space
  · intro hcon
    exact hne (List.map_eq_nil_iff.mp hcon)
  · intro b hb
    obtain ⟨p, hp, rfl⟩ := List.mem_map.mp hb
    exact lineTok_getLast (hpaths p hp).1 (fun c hc =>
      stripInv_last (hpaths p hp).2.1 c hc)

theorem lineTok_head (p : String) : (lineTok p ++ ['\n']).head? = some ' ' := rfl

theorem chain'_groupBody (content : String) (g : String × List String)
    (hg : g ∈ dupGroups content) : (groupBody g).Chain' NlOk := by
  obtain ⟨-, hpaths, -, -⟩ := dupGroups_member_facts content g hg
  rw [groupBody_shape]
  rw [List.chain'_append]
  refine ⟨chain'_nlOk_append_nl (headerA_no_nl content g hg), ?_, ?_⟩
  · apply chain'_nlOk_flatten
    · intro b hb
      obtain ⟨p, hp, rfl⟩ := List.mem_map.mp hb
      apply chain'_nlOk_append_nl
      intro c hc
      have htok : lineTok p = [' ', ' '] ++ p.data := rfl
      rw [htok] at hc
      rcases List.mem_append.mp hc with hc2 | hc2
      · fin_cases hc2 <;> decide
      · intro hh
        exact (hpaths p hp).2.2 (hh ▸ hc2)
    · intro b hb y hy
      obtain ⟨p, hp, rfl⟩ := List.mem_map.mp hb
      rw [lineTok_head] at hy
      have hy2 : ' ' = y := by simpa using hy
      rw [← hy2]; decide
  · intro x hx y hy
    intro _
    refine flatten_head_ne _ ?_ y hy
    intro b hb y2 hy2
    obtain ⟨p, hp, rfl⟩ := List.mem_map.mp hb
    rw [lineTok_head] at hy2
    have hy3 : ' ' = y2 := by simpa using hy2
    rw [← hy3]; decide

theorem pyStripCh_groupBody (content : String) (g : String × List String)
    (hg : g ∈ dupGroups content) :
    pyStripCh (groupBody g) = (headerA g).dropWhile pyIsSpace ++ midX g := by
  rw [groupBody_decomp]
  have hHne : (headerA g).dropWhile pyIsSpace ≠ [] :=
    dropWhile_ne_nil_of_exists '=' (headerA_has_eq g) (by decide)
  unfold pyStripCh
  rw [dropWhile_append_of_ne _ hHne]
  obtain ⟨c, hc, hcs⟩ := midX_getLast content g hg
  have hrev : ((headerA g).dropWhile pyIsSpace ++ (midX g ++ ['\n'])).reverse
      = '\n' :: ((headerA g).dropWhile pyIsSpace ++ midX g).reverse := by
    simp [List.reverse_append]
  rw [hrev]
  rw [List.dropWhile_cons]
  rw [if_pos (by decide)]
  have hhead : (((headerA g).dropWhile pyIsSpace ++ midX g).reverse).head? = some c := by
    rw [List.head?_reverse, List.getLast?_append, hc]
    rfl
  cases hrcase : ((headerA g).dropWhile pyIsSpace ++ midX g).reverse with
  | nil => rw [hrcase] at hhead; cases hhead
  | cons d t =>
    rw [hrcase] at hhead
    have hdc : d = c := by simpa using hhead
    rw [List.dropWhile_cons, if_neg (by rw [hdc, hcs]; simp)]
    rw [← hrcase, List.reverse_reverse]

theorem linesplit_groupBody (content : String) (g : String × List String)
    (hg : g ∈ dupGroups content) :
    pySplit ['\n'] (pyStripCh (groupBody g)) =
      (headerA g).dropWhile pyIsSpace :: g.2.map lineTok := by
  rw [pyStripCh_groupBody content g hg]
  have hmid : midX g = ((g.2.map lineTok).map (fun b => ['\n'] ++ b)).flatten := by
    unfold midX
    rw [List.map_map]
    rfl
  rw [hmid]
  apply pySplit_blocks ['\n'] (by simp)
  · apply sepFree_single_of_not_mem
    intro hmem
    have h2 := (List.dropWhile_sublist pyIsSpace).subset hmem
    exact headerA_no_nl content g hg '\n' h2 rfl
  · intro b hb
    obtain ⟨p, hp, rfl⟩ := List.mem_map.mp hb
    apply sepFree_single_of_not_mem
    intro hmem
    have htok : lineTok p = [' ', ' '] ++ p.data := rfl
    rw [htok] at hmem
    obtain ⟨-, hpaths, -, -⟩ := dupGroups_member_facts content g hg
    rcases List.mem_append.mp hmem with hc2 | hc2
    · simp at hc2
    · exact (hpaths p hp).2.2 hc2

theorem strMk_data (p : String) : String.mk p.data = p := rfl

theorem parseSection_paths (content : String) (g : String × List String)
    (hg : g ∈ dupGroups content) :
    (parseSection (groupBody g)).2 = g.2 := by
  obtain ⟨-, hpaths, -, -⟩ := dupGroups_member_facts content g hg
  unfold parseSection
  rw [linesplit_groupBody content g hg]
  simp only [List.drop_succ_cons, List.drop_zero, List.map_map]
  have hmapstrip : g.2.map (pyStripCh ∘ lineTok) = g.2.map String.data := by
    apply List.map_congr_left
    intro p hp
    show pyStripCh (lineTok p) = p.data
    have htok : lineTok p = [' ', ' '] ++ p.data := rfl
    rw [htok, pyStripCh_spaces_append (by decide)]
    exact (hpaths p hp).2.1
  rw [hmapstrip]
  have hfilter : (g.2.map String.data).filter (fun l => l ≠ []) = g.2.map String.data := by
    apply List.filter_eq_self.mpr
    intro x hx
    obtain ⟨p, hp, rfl⟩ := List.mem_map.mp hx
    exact decide_eq_true (hpaths p hp).1
  rw [hfilter, List.map_map]
  show g.2.map (fun p => String.mk p.data) = g.2
  have hid : g.2.map (fun p => String.mk p.data) = g.2.map id :=
    List.map_congr_left (fun p _ => strMk_data p)
  rw [hid, List.map_id]

theorem pyStripCh_append_one_space {l : List Char} (hne : l ≠ [])
    (hhead : ∀ c ∈ l.head?, pyIsSpace c = false)
    (hlast : ∀ c ∈ l.getLast?, pyIsSpace c = false) :
    pyStripCh (l ++ [' ']) = l := by
  unfold pyStripCh
  have h1 : (l ++ [' ']).dropWhile pyIsSpace = l ++ [' '] := by
    cases l with
    | nil => exact absurd rfl hne
    | cons a t =>
      rw [List.cons_append, List.dropWhile_cons, if_neg]
      have ha := hhead a (by simp)
      simp [ha]
  rw [h1]
  have h2 : (l ++ [' ']).reverse = ' ' :: l.reverse := by simp
  rw [h2, List.dropWhile_cons, if_pos (by decide)]
  have h3 : l.reverse.dropWhile pyIsSpace = l.reverse := by
    cases hrev : l.reverse with
    | nil => rfl
    | cons a t =>
      rw [List.dropWhile_cons, if_neg]
      have ha : a ∈ l.getLast? := by
        rw [← List.head?_reverse, hrev]
        simp
      have has := hlast a ha
      simp [has]
  rw [h3, List.reverse_reverse]

theorem headerA_cons (g : String × List String) :
    headerA g = ' ' :: (g.1.data ++ ([' '] ++ (['('] ++
      ((Nat.repr g.2.length).data ++ (" copies) ===" : String).data)))) := by
  unfold headerA
  simp only [String.data_append, List.append_assoc]
  rfl

theorem parseSection_label (content : String) (g : String × List String)
    (hg : g ∈ dupGroups content)
    (hpar : '(' ∉ g.1.data)
    (hhead : ∀ c ∈ g.1.data.head?, pyIsSpace c = false) :
    (parseSection (groupBody g)).1 = g.1 := by
  obtain ⟨-, -, -, hlast1⟩ := dupGroups_member_facts content g hg
  unfold parseSection
  rw [linesplit_groupBody content g hg]
  simp only [List.headD_cons]
  rw [headerA_cons, List.dropWhile_cons, if_pos (by decide)]
  cases hdata : g.1.data with
  | nil =>
    simp only [List.nil_append]
    have hstep : ([' '] ++ (['('] ++
          ((Nat.repr g.2.length).data ++ (" copies) ===" : String).data))).dropWhile pyIsSpace
        = '(' :: ((Nat.repr g.2.length).data ++ (" copies) ===" : String).data) := by
      show ((' ' :: ('(' :: _)).dropWhile pyIsSpace) = _
      rw [List.dropWhile_cons, if_pos (by decide), List.dropWhile_cons, if_neg (by decide)]
      rfl
    rw [hstep]
    have hsplit : pySplit ['('] ('(' ::
          ((Nat.repr g.2.length).data ++ (" copies) ===" : String).data))
        = [] :: pySplit ['(']
            ((Nat.repr g.2.length).data ++ (" copies) ===" : String).data) := by
      have h0 := pySplit_append_sep ['('] (by simp) []
        ((Nat.repr g.2.length).data ++ (" copies) ===" : String).data) (sepFree_nil _)
      simpa using h0
    rw [hsplit]
    simp only [List.headD_cons]
    show String.mk (pyStripCh []) = g.1
    apply strExt
    rw [hdata]
    rfl
  | cons c t =>
    have hc := hhead c (by rw [hdata]; rfl)
    have hstep : ((c :: t) ++ ([' '] ++ (['('] ++
          ((Nat.repr g.2.length).data ++ (" copies) ===" : String).data)))).dropWhile pyIsSpace
        = (c :: t) ++ ([' '] ++ (['('] ++
          ((Nat.repr g.2.length).data ++ (" copies) ===" : String).data))) := by
      rw [List.cons_append, List.dropWhile_cons, if_neg (by simp [hc])]
    rw [hstep]
    have hshape : (c :: t) ++ ([' '] ++ (['('] ++
          ((Nat.repr g.2.length).data ++ (" copies) ===" : String).data)))
        = ((c :: t) ++ [' ']) ++ ['('] ++
          ((Nat.repr g.2.length).data ++ (" copies) ===" : String).data) := by
      simp [List.append_assoc]
    rw [hshape]
    have hfree : SepFree ['('] ((c :: t) ++ [' ']) := by
      apply sepFree_single_of_not_mem
      intro hmem
      rcases List.mem_append.mp hmem with hc2 | hc2
      · rw [← hdata] at hc2
        exact hpar hc2
      · simp at hc2
    rw [pySplit_append_sep ['('] (by simp) ((c :: t) ++ [' ']) _ hfree]
    simp only [List.headD_cons]
    show String.mk (pyStripCh ((c :: t) ++ [' '])) = g.1
    rw [pyStripCh_append_one_space (by simp) ?_ ?_]
    · apply strExt
      rw [hdata]
    · intro d hd
      have hdc : c = d := by simpa using hd
      rw [← hdc]
      exact hc
    · intro d hd
      apply hlast1 d
      rw [hdata]
      exact hd

theorem reportOf_data (content : String) :
    (reportOf content).data
      = (((dupGroups content).map groupBody).map (fun b => secSep ++ b)).flatten := by
  rw [reportOf_eq_join, String.data_join, List.map_map, List.map_map]
  congr 1
  apply List.map_congr_left
  intro g _
  exact renderGroup_data g

theorem parseReport_reportOf (content : String) :
    parseReport (reportOf content)
      = (dupGroups content).map (fun g => parseSection (groupBody g)) := by
  unfold parseReport
  rw [reportOf_data]
  have hsplit := pySplit_blocks secSep (by simp [secSep])
    ((dupGroups content).map groupBody) [] (sepFree_nil secSep)
    (fun b hb => by
      obtain ⟨g, hgg, rfl⟩ := List.mem_map.mp hb
      exact sepFree_secSep_of_chain (chain'_groupBody content g hgg))
  rw [List.nil_append] at hsplit
  rw [hsplit, List.drop_succ_cons, List.drop_zero, List.map_map]
  rfl

theorem forall₂_map_left {α β : Type} {R : β → α → Prop} (f : α → β) :
    ∀ (l : List α), (∀ a ∈ l, R (f a) a) → List.Forall₂ R (l.map f) l
  | [], _ => List.Forall₂.nil
  | a :: l, h => List.Forall₂.cons (h a (List.mem_cons_self a l))
      (forall₂_map_left f l (fun b hb => h b (List.mem_cons_of_mem a hb)))

/-- C9 counterexample: basenames that begin with whitespace round-trip with a
different label even though they contain no `'('`. On input `"a/ b\nc/ b"`
the Finder groups under basename `" b"`, but the Selector parses the label
back as `"b"`; the member paths still round-trip exactly. -/
theorem c9_cex :
    dupGroups "a/ b\nc/ b" = [(" b", ["a/ b", "c/ b"])] ∧
    parseReport (reportOf "a/ b\nc/ b") = [("b", ["a/ b", "c/ b"])] ∧
    '(' ∉ (" b" : String).data ∧
    ("b" : String) ≠ " b" := by
  decide

/-- C9 (amended): parsing the Finder's report recovers exactly the reported
groups: section by section, the parsed member paths equal the paths the
Finder wrote, in the same order; and the parsed label equals the basename
whenever the basename contains no `'('` and does not begin with a
whitespace character. -/
theorem c9_roundtrip (content : String) :
    List.Forall₂ (fun parsed orig =>
        parsed.2 = orig.2 ∧
        (('(' ∉ orig.1.data ∧ ∀ c ∈ orig.1.data.head?, pyIsSpace c = false) →
          parsed.1 = orig.1))
      (parseReport (reportOf content)) (dupGroups content) := by
  rw [parseReport_reportOf]
  apply forall₂_map_left
  intro g hg
  exact ⟨parseSection_paths content g hg,
    fun hcond => parseSection_label content g hg hcond.1 hcond.2⟩

/-- C9 witness: the round trip on a concrete two-path group, with the label
condition discharged concretely. -/
theorem c9_witness :
    List.Forall₂ (fun parsed orig =>
        parsed.2 = orig.2 ∧
        (('(' ∉ orig.1.data ∧ ∀ c ∈ orig.1.data.head?, pyIsSpace c = false) →
          parsed.1 = orig.1))
      (parseReport (reportOf "a/x.txt\nb/x.txt")) (dupGroups "a/x.txt\nb/x.txt") :=
  c9_roundtrip "a/x.txt\nb/x.txt"

end Dedup
